/-
Verification of `music21/musicxml/helpers.py` against its natural-language
specification.

The Python module is shallowly embedded below:

* Python strings are Lean `String`s (lists of Unicode scalar values); the
  character-class predicates (`str.isnumeric`, `str.strip` whitespace) are
  modelled on the ASCII range, where they agree exactly with `int()`
  parsability.
* Python string comparison (`<` on `str`, used by `sorted`) is code-point
  lexicographic comparison, embedded as `pyCharsLt`.
* `xml.etree.ElementTree.Element` is the inductive type `Element`; its
  attribute dict is an insertion-ordered association list with unique keys.
* In-place mutation is embedded by explicit state passing: a Python function
  mutating an element becomes a Lean function returning the new element.
* A Python call that raises is embedded as an `Option`-valued function
  returning `none`.
-/
import Mathlib

/-! ### Python string primitives -/

/-- Python `str.isnumeric` on one character, modelled on the ASCII range
(where it coincides with `str.isdigit` and with acceptability to `int()`):
true exactly for the decimal digits `'0'`-`'9'`. -/
def pyIsNumeric (c : Char) : Bool := c.isDigit

/-- The Python whitespace characters stripped by `str.strip()` /
`str.rstrip()` (ASCII range). -/
def pyIsSpace (c : Char) : Bool :=
  c = ' ' || c = '\t' || c = '\n' || c = '\x0d' || c = '\x0b' || c = '\x0c'

/-- Python code-point lexicographic comparison `<` on strings, as lists of
characters.  This is exactly CPython's `str.__lt__` algorithm. -/
def pyCharsLt : List Char → List Char → Bool
  | [], [] => false
  | [], _ :: _ => true
  | _ :: _, [] => false
  | a :: as, b :: bs =>
    if a.toNat < b.toNat then true
    else if b.toNat < a.toNat then false
    else pyCharsLt as bs

/-- Python `<` on strings. -/
def pyStrLt (s t : String) : Bool := pyCharsLt s.data t.data

/-- Python truthiness-and-strip test used all over `indent`:
`not x or not x.strip()` for an optional string `x` (`None` ↦ true,
a string is "blank" iff all of its characters are whitespace). -/
def pyBlank : Option String → Bool
  | none => true
  | some s => s.data.all pyIsSpace

/-- Python string repetition `n * s`. -/
def pyRepeat (n : Nat) (s : String) : String := String.join (List.replicate n s)

/-- Python `str.rstrip()` (strip trailing whitespace). -/
def pyRstrip (s : String) : String :=
  String.mk (s.data.reverse.dropWhile pyIsSpace).reverse

/-- The numeric value of a decimal digit character. -/
def digitVal (c : Char) : Nat := c.toNat - 48

/-- The value of Python `int(s)` on a string of decimal digits, as produced by
the digit-prefix scan of `measureNumberComesBefore`: `none` (a raised
`ValueError`) when the string is empty, otherwise the base-10 value. -/
def pyIntDigits : List Char → Option Nat
  | [] => none
  | cs => some (cs.foldl (fun a c => 10 * a + digitVal c) 0)

/-! ### The measure-number comparator

`measureNumberComesBefore` from `musicxml/helpers.py`:

```python
def measureNumberComesBefore(mNum1: str, mNum2: str) -> bool:
    def splitSuffix(measureNumber):
        number = ''
        for char in measureNumber:
            if char.isnumeric():
                number += char
            else:
                break
        suffix = measureNumber[len(number):]
        return number, suffix

    if mNum1 == mNum2:
        return False
    m1Numeric, m1Suffix = splitSuffix(mNum1)
    m2Numeric, m2Suffix = splitSuffix(mNum2)
    if int(m1Numeric) != int(m2Numeric):
        return int(m1Numeric) < int(m2Numeric)
    else:
        sortedSuffixes = sorted([m1Suffix, m2Suffix])
        return m1Suffix is sortedSuffixes[0]
```

`sorted` on a two-element list is stable, so `m1Suffix is sortedSuffixes[0]`
holds iff `m2Suffix < m1Suffix` is false (on equal suffix values the stable
sort keeps `m1Suffix` first, and for a common single-character or empty
suffix CPython returns the interned object from slicing, so the identity
test agrees with value order in every case). -/

/-- The inner `splitSuffix`: maximal leading run of numeric characters and
the remaining suffix, on character lists. -/
def splitSuffix (cs : List Char) : List Char × List Char :=
  (cs.takeWhile pyIsNumeric, cs.dropWhile pyIsNumeric)

/-- The comparator `measureNumberComesBefore`, with a raised `ValueError` (from `int('')`)
embedded as `none`. -/
def measureNumberComesBefore (mNum1 mNum2 : String) : Option Bool :=
  if mNum1 = mNum2 then some false
  else
    match pyIntDigits (splitSuffix mNum1.data).1, pyIntDigits (splitSuffix mNum2.data).1 with
    | some i1, some i2 =>
      if i1 ≠ i2 then some (decide (i1 < i2))
      else some (!(pyCharsLt (splitSuffix mNum2.data).2 (splitSuffix mNum1.data).2))
    | _, _ => none

/-- A valid measure identifier: a non-empty leading run of decimal digits. -/
def validMeasureNumber (s : String) : Bool := !(s.data.takeWhile pyIsNumeric).isEmpty

example : measureNumberComesBefore "23" "24" = some true := by decide
example : measureNumberComesBefore "23" "23" = some false := by decide
example : measureNumberComesBefore "23" "23a" = some true := by decide
example : measureNumberComesBefore "23a" "23b" = some true := by decide
example : measureNumberComesBefore "23b" "23a" = some false := by decide
example : measureNumberComesBefore "23b" "24a" = some true := by decide
example : measureNumberComesBefore "1a" "01a" = some true := by decide
example : measureNumberComesBefore "01a" "1a" = some true := by decide
example : measureNumberComesBefore "x" "y" = none := by decide

/-! ### The element tree

`xml.etree.ElementTree.Element`: a tag, an insertion-ordered attribute dict
(association list with unique keys), optional inline text, the ordered list
of children, and optional tail text. -/

inductive Element where
  | mk : String → List (String × String) → Option String → List Element →
      Option String → Element

def Element.tag : Element → String
  | .mk t _ _ _ _ => t

def Element.attrib : Element → List (String × String)
  | .mk _ a _ _ _ => a

def Element.text : Element → Option String
  | .mk _ _ tx _ _ => tx

def Element.children : Element → List Element
  | .mk _ _ _ cs _ => cs

def Element.tail : Element → Option String
  | .mk _ _ _ _ tl => tl

/-- Overwrite the tail field (Python `elem.tail = i`). -/
def Element.setTail (e : Element) (i : String) : Element :=
  match e with
  | .mk t a tx cs _ => .mk t a tx cs (some i)

/-- Python `element.get(key)`: first value bound to `key` in the attribute
dict, if any. -/
def Element.getAttr (e : Element) (k : String) : Option String :=
  (e.attrib.find? (fun p => p.1 = k)).map Prod.snd

/-- Python dict assignment `d[k] = v`: updating an existing key keeps its
position, a new key is appended at the end. -/
def dictSet (l : List (String × String)) (k v : String) : List (String × String) :=
  if l.any (fun p => p.1 = k) then
    l.map (fun p => if p.1 = k then (k, v) else p)
  else l ++ [(k, v)]

/-- Python `element.set(key, value)`. -/
def Element.setAttr (e : Element) (k v : String) : Element :=
  match e with
  | .mk t a tx cs tl => .mk t (dictSet a k v) tx cs tl

/-! ### The canonical serializer -/

/-- CPython's `xml.etree.ElementTree._escape_attrib` on one character (the sequential
`str.replace` calls, `&` first, are equivalent to this per-character map). -/
def escapeAttribChar (c : Char) : String :=
  if c = '&' then "&amp;"
  else if c = '<' then "&lt;"
  else if c = '>' then "&gt;"
  else if c = '\x22' then "&quot;"
  else if c = '\x0d' then "&#13;"
  else if c = '\n' then "&#10;"
  else if c = '\t' then "&#09;"
  else String.mk [c]

/-- CPython's `xml.etree.ElementTree._escape_attrib`. -/
def escapeAttrib (s : String) : String :=
  String.join (s.data.map escapeAttribChar)

/-- CPython's `xml.etree.ElementTree._escape_cdata` on one character. -/
def escapeCdataChar (c : Char) : String :=
  if c = '&' then "&amp;"
  else if c = '<' then "&lt;"
  else if c = '>' then "&gt;"
  else String.mk [c]

/-- CPython's `xml.etree.ElementTree._escape_cdata`. -/
def escapeCdata (s : String) : String :=
  String.join (s.data.map escapeCdataChar)

/-- Python truthiness of an optional string (`None` and `''` are falsy). -/
def pyTruthy : Option String → Bool
  | none => false
  | some s => !s.isEmpty

/-! `xml.etree.ElementTree.tostring(el, encoding='unicode')`, i.e.
`_serialize_xml` with `short_empty_elements=True` and no namespaces: the
attribute items in dict order, then either a self-closing form (no children
and falsy text) or text, children and a closing tag; the tail is appended
last. -/
mutual

/-- Serialize one element (see the block comment above). -/
def serializeEl : Element → String
  | .mk tag attrib text children tail =>
    "<" ++ tag
      ++ String.join (attrib.map
          (fun p => " " ++ p.1 ++ "=\x22" ++ escapeAttrib p.2 ++ "\x22"))
      ++ (if pyTruthy text || !children.isEmpty then
            ">"
              ++ (if pyTruthy text then escapeCdata (text.getD "") else "")
              ++ serializeList children
              ++ "</" ++ tag ++ ">"
          else " />")
      ++ (if pyTruthy tail then escapeCdata (tail.getD "") else "")

def serializeList : List Element → String
  | [] => ""
  | e :: es => serializeEl e ++ serializeList es

end

/-! ### `indent` -/

/-- The indentation string `'\n' + level * '  '`. -/
def levelIndent (level : Nat) : String := "\n" ++ pyRepeat level "  "

/-- Overwrite the tail of the last element of a list (the
`subElem.tail = i` step after the loop in `indent`). -/
def setLastTail (i : String) : List Element → List Element
  | [] => []
  | [e] => [e.setTail i]
  | e :: e' :: es => e :: setLastTail i (e' :: es)

/-! `indent(elem, level)` from `musicxml/helpers.py`, as a pure function on
the element (in-place mutation embedded as returning the new element):

```python
def indent(elem, level=0):
    i = '\n' + level * '  '
    lenL = len(elem)
    if lenL:
        if not elem.text or not elem.text.strip():
            elem.text = i + '  '
        if not elem.tail or not elem.tail.strip():
            elem.tail = i
        subElem = None
        for subElem in elem:
            indent(subElem, level + 1)
        if subElem is not None:  # last el
            subElem.tail = i
        if not elem.tail or not elem.tail.strip():
            elem.tail = '\n' + level * '  '
    else:
        if level and (not elem.tail or not elem.tail.strip()):
            elem.tail = i
```
-/
mutual

/-- Indent one element (see the block comment above); the `if lenL:` branch
of the source is the match on the children list. -/
def indentEl (level : Nat) (e : Element) : Element :=
  match e with
  | .mk t a tx [] tl =>
    if level ≠ 0 && pyBlank tl then .mk t a tx [] (some (levelIndent level))
    else .mk t a tx [] tl
  | .mk t a tx (c0 :: cs0) tl =>
    let i := levelIndent level
    let tx1 := if pyBlank tx then some (i ++ "  ") else tx
    let tl1 := if pyBlank tl then some i else tl
    let cs1 := setLastTail i (indentList (level + 1) (c0 :: cs0))
    let tl2 := if pyBlank tl1 then some ("\n" ++ pyRepeat level "  ") else tl1
    .mk t a tx1 cs1 tl2

def indentList (level : Nat) : List Element → List Element
  | [] => []
  | e :: es => indentEl level e :: indentList level es

end

/-! ### Attribute sorting and `dumpString` -/

/-- Python tuple comparison `(k1, v1) < (k2, v2)` on pairs of strings. -/
def pairLt (p q : String × String) : Bool :=
  pyStrLt p.1 q.1 || (p.1 = q.1 && pyStrLt p.2 q.2)

/-- The (non-strict) order `sorted` realizes on pairs of strings. -/
def PairLe (p q : String × String) : Prop := pairLt p q = true ∨ p = q

instance : DecidableRel PairLe := fun p q => by unfold PairLe; infer_instance

/-- Python `sorted(attrib.items())`. -/
def pySortPairs (l : List (String × String)) : List (String × String) :=
  List.insertionSort PairLe l

mutual

/-- The `for el in xmlEl.iter()` loop of `dumpString`: on every node of the
tree, if the node has more than one attribute, replace its attribute dict by
the sorted items. -/
def sortAttribsEl : Element → Element
  | .mk t a tx cs tl =>
    .mk t (if 1 < a.length then pySortPairs a else a) tx (sortAttribsList cs) tl

def sortAttribsList : List Element → List Element
  | [] => []
  | e :: es => sortAttribsEl e :: sortAttribsList es

end

/-- The function `dumpString(obj, noCopy=...)`.  The returned pair is (the returned
string, the state of the caller's tree after the call): with
`noCopy=False` the function works on a deep copy, so the caller's tree is
returned unchanged; with `noCopy=True` the indentation and attribute
sorting mutate the caller's tree in place. -/
def dumpString (obj : Element) (noCopy : Bool) : String × Element :=
  let xmlEl := sortAttribsEl (indentEl 0 obj)
  let xStr := pyRstrip (serializeEl xmlEl)
  (xStr, if noCopy then xmlEl else obj)

/-! ### `insertBeforeElements` -/

/-- A default element (only used to make positional lookup total). -/
instance : Inhabited Element := ⟨.mk "" [] none [] none⟩

/-- The function `insertBeforeElements(root, insert, tagList=None)`:

```python
if not tagList:
    root.append(insert)
    return
insertIndices = {len(root)}
for i, child in enumerate(root.findall('*')):
    if child.tag in tagList:
        insertIndices.add(i)
root.insert(min(insertIndices), insert)
```
-/
def insertBeforeElements (root insert : Element) (tagList : Option (List String)) :
    Element :=
  match root with
  | .mk t a tx cs tl =>
    match tagList with
    | none => .mk t a tx (cs ++ [insert]) tl
    | some [] => .mk t a tx (cs ++ [insert]) tl
    | some ts =>
      let idxs := (List.range cs.length).filter
        (fun j => ts.contains (cs.getD j default).tag)
      let m := idxs.foldl Nat.min cs.length
      .mk t a tx (cs.take m ++ insert :: cs.drop m) tl

/-! ### Python scalar values for the attribute synchronizers -/

/-- A Python scalar value held in an object field or produced by a transform.
`none` is not a constructor here: `getattr(obj, name, None)` conflates an
absent field with a field holding `None`, so object fields are modelled as
`Option PyVal` with `Option.none` covering both. -/
inductive PyVal where
  | str : String → PyVal
  | int : Int → PyVal
  | bool : Bool → PyVal
deriving DecidableEq

/-- Python `str()` on a scalar value. -/
def pyStr : PyVal → String
  | .str s => s
  | .int n => toString n
  | .bool b => if b then "True" else "False"

/-- Capitalize the first character of a string (Python `str.capitalize` as
used for camel-casing name fragments). -/
def capFirst (s : String) : String :=
  match s.data with
  | [] => ""
  | c :: cs => String.mk (c.toUpper :: cs)

/-- Split a character list at every hyphen. -/
def splitOnHyphen : List Char → List (List Char)
  | [] => [[]]
  | c :: cs =>
    if c = '-' then [] :: splitOnHyphen cs
    else
      match splitOnHyphen cs with
      | [] => [[c]]
      | p :: ps => (c :: p) :: ps

/-- Modelled from the spec: `common.hyphenToCamelCase` (the naming-convention
translation, not part of this module's source) converts a hyphenated
attribute name to camel case, e.g. `"page-number"` to `"pageNumber"`:
the fragments between hyphens are joined with every fragment after the
first capitalized. -/
def hyphenToCamelCase (s : String) : String :=
  match (splitOnHyphen s.data).map String.mk with
  | [] => s
  | p :: ps => String.join (p :: ps.map capFirst)

example : hyphenToCamelCase "page-number" = "pageNumber" := by decide
example : hyphenToCamelCase "new-page" = "newPage" := by decide

/-- Modelled from the spec: `xmlObjects.isValidXSDID` (the external
identifier-syntax predicate, not part of this module's source) accepts a
string iff it starts with a letter or an underscore and draws the remaining
characters from a restricted set (letters, digits, underscore, hyphen,
period); in particular every all-numeric string is rejected. -/
def isValidXSDID (s : String) : Bool :=
  match s.data with
  | [] => false
  | c :: cs =>
    (c.isAlpha || c = '_')
      && cs.all (fun d => d.isAlpha || d.isDigit || d = '_' || d = '-' || d = '.')

example : isValidXSDID "123456" = false := by decide
example : isValidXSDID "validName1" = true := by decide

/-- An object as seen by `synchronizeIdsToXML`: `idField = none` models an
object with no `id` attribute (`hasattr` false); `some none` models
`obj.id is None`; `some (some s)` an id string `s`. -/
structure M21Object where
  idField : Option (Option String)

/-- The function `synchronizeIdsToXML(element, m21Object)`; passing `none` for the object
models passing `None` (or any non-`ProtoM21Object`):

```python
if not isinstance(m21Object, prebase.ProtoM21Object):
    return
if not hasattr(m21Object, 'id'):
    return
m21Id = m21Object.id
if m21Id is None:
    return
if not xmlObjects.isValidXSDID(m21Id):
    return
element.set('id', m21Id)
```
-/
def synchronizeIdsToXML (element : Element) (m21Object : Option M21Object) :
    Element :=
  match m21Object with
  | none => element
  | some o =>
    match o.idField with
    | none => element
    | some none => element
    | some (some m21Id) =>
      if !isValidXSDID m21Id then element
      else element.setAttr "id" m21Id

/-- An object as seen by the generic attribute synchronizers: a mapping from
field name to field value, with `none` for "absent or `None`" (which is what
`getattr(obj, name, None)` observes). -/
def M21FieldMap : Type := String → Option PyVal

/-- The function `setM21AttributeFromAttribute(m21El, xmlEl, xmlAttributeName,
attributeName=None, transform=None)`, returning the updated object:

```python
value = xmlEl.get(xmlAttributeName)
if value is None:
    return
if transform is not None:
    value = transform(value)
if attributeName is None:
    attributeName = common.hyphenToCamelCase(xmlAttributeName)
setattr(m21El, attributeName, value)
```
-/
def setM21AttributeFromAttribute (m21El : M21FieldMap) (xmlEl : Element)
    (xmlAttributeName : String) (attributeName : Option String)
    (transform : Option (String → PyVal)) : M21FieldMap :=
  match xmlEl.getAttr xmlAttributeName with
  | none => m21El
  | some value =>
    let value' := match transform with
      | none => PyVal.str value
      | some f => f value
    let attrName := match attributeName with
      | none => hyphenToCamelCase xmlAttributeName
      | some n => n
    fun k => if k = attrName then some value' else m21El k

/-- The function `setXMLAttributeFromAttribute(m21El, xmlEl, xmlAttributeName,
attributeName=None, transform=None)`, returning the updated element:

```python
if attributeName is None:
    attributeName = common.hyphenToCamelCase(xmlAttributeName)
value = getattr(m21El, attributeName, None)
if value is None:
    return
if transform is not None:
    value = transform(value)
xmlEl.set(xmlAttributeName, str(value))
```
-/
def setXMLAttributeFromAttribute (m21El : M21FieldMap) (xmlEl : Element)
    (xmlAttributeName : String) (attributeName : Option String)
    (transform : Option (PyVal → PyVal)) : Element :=
  let attrName := match attributeName with
    | none => hyphenToCamelCase xmlAttributeName
    | some n => n
  match m21El attrName with
  | none => xmlEl
  | some value =>
    let value' := match transform with
      | none => value
      | some f => f value
    xmlEl.setAttr xmlAttributeName (pyStr value')

/-! ### General-purpose lemmas about the tree embedding -/

/-- Structural induction over `Element` through the membership relation on
the children list. -/
theorem element_ind {P : Element → Prop}
    (h : ∀ t a tx cs tl, (∀ c ∈ cs, P c) → P (.mk t a tx cs tl)) :
    ∀ e, P e
  | .mk t a tx cs tl =>
    h t a tx cs tl (fun c hc =>
      have : sizeOf c < sizeOf (Element.mk t a tx cs tl) := by
        have := List.sizeOf_lt_of_mem hc
        simp only [Element.mk.sizeOf_spec]
        omega
      element_ind h c)
termination_by e => sizeOf e

/-! ### C9: behavior on equal and on non-numeric inputs -/

theorem splitSuffix_fst_nil {s : String} (h : validMeasureNumber s = false) :
    (splitSuffix s.data).1 = [] := by
  unfold validMeasureNumber at h
  unfold splitSuffix
  simpa using h

/-- C9: `measureNumberComesBefore(a, b)` with `a` equal to `b` returns
`False` without raising, for every string (even ones with no leading
digits); for unequal strings where at least one side has an empty numeric
prefix the call raises (`int('')` fails), embedded here as `none`. -/
theorem measureNumberComesBefore_equal_false_invalid_raises :
    (∀ a : String, measureNumberComesBefore a a = some false) ∧
    (∀ a b : String, a ≠ b →
      validMeasureNumber a = false ∨ validMeasureNumber b = false →
      measureNumberComesBefore a b = none) := by
  constructor
  · intro a
    simp [measureNumberComesBefore]
  · intro a b hne h
    unfold measureNumberComesBefore
    rw [if_neg hne]
    rcases h with h | h
    · rw [splitSuffix_fst_nil h]
      cases pyIntDigits (splitSuffix b.data).1 <;> rfl
    · rw [splitSuffix_fst_nil h]
      cases pyIntDigits (splitSuffix a.data).1 <;> rfl

theorem measureNumberComesBefore_equal_false_invalid_raises_witness :
    measureNumberComesBefore "23a" "23a" = some false ∧
    measureNumberComesBefore "abc" "x1" = none :=
  ⟨measureNumberComesBefore_equal_false_invalid_raises.1 "23a",
   measureNumberComesBefore_equal_false_invalid_raises.2 "abc" "x1" (by decide)
     (Or.inl (by decide))⟩

/-! ### C8: `dumpString` with the copy option leaves the caller's tree
unchanged -/

/-- C8: `dumpString` called with the copy option (`noCopy=False`, the
default) returns the caller's tree unchanged — every descendant keeps its
tag, attributes, children, text and tail — and still returns the same
string as the mutating (`noCopy=True`) call computes. -/
theorem dumpString_copy_leaves_tree_unchanged (e : Element) :
    (dumpString e false).2 = e ∧ (dumpString e false).1 = (dumpString e true).1 :=
  ⟨rfl, rfl⟩

/-! ### C5: identifier synchronization to XML -/

theorem find?_dictSet_self (l : List (String × String)) (k v : String) :
    (dictSet l k v).find? (fun p => p.1 = k) = some (k, v) := by
  unfold dictSet
  split
  · rename_i hany
    induction l with
    | nil => simp at hany
    | cons p ps ih =>
      by_cases hp : p.1 = k
      · simp [hp]
      · have hany' : ps.any (fun p => p.1 = k) := by
          simp only [List.any_cons] at hany
          simpa [hp] using hany
        simpa [hp] using ih hany'
  · rename_i hany
    have hn : l.find? (fun p => p.1 = k) = none := by
      rw [List.find?_eq_none]
      intro x hx
      simp only [List.any_eq_true, not_exists, not_and] at hany
      simpa using fun hx1 => (by simpa [hx1] using hany x hx)
    simp [List.find?_append, hn]

theorem find?_mapUpdate (k v k' : String) (h : k' ≠ k)
    (l : List (String × String)) :
    (l.map (fun p => if p.1 = k then (k, v) else p)).find? (fun p => p.1 = k')
      = l.find? (fun p => p.1 = k') := by
  induction l with
  | nil => rfl
  | cons p ps ih =>
    by_cases hp : p.1 = k
    · have h1 : ¬(((k, v) : String × String).1 = k') := fun hh => h hh.symm
      have h2 : ¬(p.1 = k') := by rw [hp]; exact fun hh => h hh.symm
      simp only [List.map_cons, if_pos hp]
      rw [List.find?_cons_of_neg _ (by simpa using h1),
        List.find?_cons_of_neg _ (by simpa using h2), ih]
    · simp only [List.map_cons, if_neg hp]
      by_cases hp' : p.1 = k'
      · rw [List.find?_cons_of_pos _ (by simpa using hp'),
          List.find?_cons_of_pos _ (by simpa using hp')]
      · rw [List.find?_cons_of_neg _ (by simpa using hp'),
          List.find?_cons_of_neg _ (by simpa using hp'), ih]

theorem find?_dictSet_other (l : List (String × String)) (k v k' : String)
    (h : k' ≠ k) :
    (dictSet l k v).find? (fun p => p.1 = k') = l.find? (fun p => p.1 = k') := by
  unfold dictSet
  split
  · exact find?_mapUpdate k v k' h l
  · have hsingle : List.find? (fun p => p.1 = k') [(k, v)] = none := by
      have : ¬(((k, v) : String × String).1 = k') := fun hh => h hh.symm
      rw [List.find?_cons_of_neg _ (by simpa using this)]
      rfl
    rw [List.find?_append, hsingle]
    cases l.find? (fun p => p.1 = k') <;> rfl

theorem getAttr_setAttr_self (e : Element) (k v : String) :
    (e.setAttr k v).getAttr k = some v := by
  cases e with
  | mk t a tx cs tl =>
    unfold Element.setAttr Element.getAttr Element.attrib
    simp [find?_dictSet_self]

theorem getAttr_setAttr_other (e : Element) (k v k' : String) (h : k' ≠ k) :
    (e.setAttr k v).getAttr k' = e.getAttr k' := by
  cases e with
  | mk t a tx cs tl =>
    unfold Element.setAttr Element.getAttr Element.attrib
    simp [find?_dictSet_other _ _ _ _ h]

/-- C5: `synchronizeIdsToXML` leaves the element unchanged when the object
has no identifier field or its identifier is unset (`None`), and when the
identifier fails the identifier-syntax validity check (e.g. the all-numeric
`'123456'`); when the identifier passes (e.g. `'validName1'`), the
element's `id` attribute is set to that value (overwriting any prior `id`)
and every other attribute is untouched. -/
theorem synchronizeIdsToXML_spec :
    (∀ el : Element, synchronizeIdsToXML el none = el) ∧
    (∀ (el : Element) (o : M21Object), o.idField = none →
      synchronizeIdsToXML el (some o) = el) ∧
    (∀ (el : Element) (o : M21Object), o.idField = some none →
      synchronizeIdsToXML el (some o) = el) ∧
    (∀ (el : Element) (o : M21Object) (v : String), o.idField = some (some v) →
      isValidXSDID v = false → synchronizeIdsToXML el (some o) = el) ∧
    (∀ (el : Element) (o : M21Object) (v : String), o.idField = some (some v) →
      isValidXSDID v = true →
      (synchronizeIdsToXML el (some o)).getAttr "id" = some v ∧
      ∀ k, k ≠ "id" → (synchronizeIdsToXML el (some o)).getAttr k = el.getAttr k) ∧
    (isValidXSDID "123456" = false ∧ isValidXSDID "validName1" = true) := by
  refine ⟨fun el => rfl, fun el o h => ?_, fun el o h => ?_, fun el o v h hv => ?_,
    fun el o v h hv => ?_, by decide, by decide⟩
  · simp [synchronizeIdsToXML, h]
  · simp [synchronizeIdsToXML, h]
  · simp [synchronizeIdsToXML, h, hv]
  · refine ⟨?_, fun k hk => ?_⟩
    · simp [synchronizeIdsToXML, h, hv, getAttr_setAttr_self]
    · simp [synchronizeIdsToXML, h, hv, getAttr_setAttr_other el "id" v k hk]

theorem synchronizeIdsToXML_spec_witness :
    synchronizeIdsToXML (.mk "fermata" [] none [] none) (some ⟨some (some "123456")⟩)
        = .mk "fermata" [] none [] none ∧
    (synchronizeIdsToXML (.mk "fermata" [("id", "old")] none [] none)
        (some ⟨some (some "validName1")⟩)).getAttr "id" = some "validName1" :=
  ⟨synchronizeIdsToXML_spec.2.2.2.1 _ ⟨some (some "123456")⟩ "123456" rfl (by decide),
   (synchronizeIdsToXML_spec.2.2.2.2.1 _ ⟨some (some "validName1")⟩ "validName1" rfl
      (by decide)).1⟩

/-! ### C6: pushing an object field to an XML attribute -/

/-- C6: `setXMLAttributeFromAttribute` skips only when the object's source
field is absent or `None` (what `getattr(obj, name, None)` conflates into
`none` here); any present value — zero and the empty string included — is
transformed when a transform is given, stringified, and written as the
element's attribute, overwriting any existing value and leaving every other
attribute unchanged. -/
theorem setXMLAttributeFromAttribute_spec :
    (∀ (m21El : M21FieldMap) (xmlEl : Element) (xn : String) (an : Option String)
        (tr : Option (PyVal → PyVal)),
      m21El (an.getD (hyphenToCamelCase xn)) = none →
      setXMLAttributeFromAttribute m21El xmlEl xn an tr = xmlEl) ∧
    (∀ (m21El : M21FieldMap) (xmlEl : Element) (xn : String) (an : Option String)
        (tr : Option (PyVal → PyVal)) (v : PyVal),
      m21El (an.getD (hyphenToCamelCase xn)) = some v →
      (setXMLAttributeFromAttribute m21El xmlEl xn an tr).getAttr xn
          = some (pyStr (match tr with | none => v | some f => f v)) ∧
      ∀ k, k ≠ xn →
        (setXMLAttributeFromAttribute m21El xmlEl xn an tr).getAttr k
          = xmlEl.getAttr k) := by
  constructor
  · intro m21El xmlEl xn an tr h
    cases an with
    | none =>
      simp only [setXMLAttributeFromAttribute]
      rw [Option.getD_none] at h
      rw [h]
    | some n =>
      simp only [setXMLAttributeFromAttribute]
      rw [Option.getD_some] at h
      rw [h]
  · intro m21El xmlEl xn an tr v h
    cases an with
    | none =>
      rw [Option.getD_none] at h
      refine ⟨?_, fun k hk => ?_⟩
      · simp only [setXMLAttributeFromAttribute, h]
        cases tr <;> exact getAttr_setAttr_self _ _ _
      · simp only [setXMLAttributeFromAttribute, h]
        cases tr <;> exact getAttr_setAttr_other _ _ _ _ hk
    | some n =>
      rw [Option.getD_some] at h
      refine ⟨?_, fun k hk => ?_⟩
      · simp only [setXMLAttributeFromAttribute, h]
        cases tr <;> exact getAttr_setAttr_self _ _ _
      · simp only [setXMLAttributeFromAttribute, h]
        cases tr <;> exact getAttr_setAttr_other _ _ _ _ hk

theorem setXMLAttributeFromAttribute_spec_witness :
    (setXMLAttributeFromAttribute (fun n => if n = "pageNumber" then some (.int 0) else none)
        (.mk "page-layout" [] none [] none) "page-number" none none).getAttr "page-number"
      = some "0" ∧
    (setXMLAttributeFromAttribute (fun n => if n = "isNew" then some (.str "") else none)
        (.mk "page-layout" [("new-page", "old")] none [] none) "new-page" (some "isNew")
        none).getAttr "new-page" = some "" :=
  ⟨(setXMLAttributeFromAttribute_spec.2
      (fun n => if n = "pageNumber" then some (.int 0) else none)
      (.mk "page-layout" [] none [] none) "page-number" none none (.int 0) (by decide)).1,
   (setXMLAttributeFromAttribute_spec.2
      (fun n => if n = "isNew" then some (.str "") else none)
      (.mk "page-layout" [("new-page", "old")] none [] none) "new-page" (some "isNew")
      none (.str "") (by decide)).1⟩

/-! ### C7: pulling an XML attribute into an object field -/

/-- C7: `setM21AttributeFromAttribute` is a no-op when the named attribute is
absent from the element — every field of the object keeps its prior value —
while an attribute that is present with any value (the empty string
included) is transformed and written to the target field, leaving the other
fields unchanged. -/
theorem setM21AttributeFromAttribute_spec :
    (∀ (m21El : M21FieldMap) (xmlEl : Element) (xn : String) (an : Option String)
        (tr : Option (String → PyVal)),
      xmlEl.getAttr xn = none →
      ∀ k, setM21AttributeFromAttribute m21El xmlEl xn an tr k = m21El k) ∧
    (∀ (m21El : M21FieldMap) (xmlEl : Element) (xn : String) (an : Option String)
        (tr : Option (String → PyVal)) (s : String),
      xmlEl.getAttr xn = some s →
      setM21AttributeFromAttribute m21El xmlEl xn an tr (an.getD (hyphenToCamelCase xn))
          = some (match tr with | none => PyVal.str s | some f => f s) ∧
      ∀ k, k ≠ an.getD (hyphenToCamelCase xn) →
        setM21AttributeFromAttribute m21El xmlEl xn an tr k = m21El k) := by
  constructor
  · intro m21El xmlEl xn an tr h k
    simp only [setM21AttributeFromAttribute, h]
  · intro m21El xmlEl xn an tr s h
    cases an with
    | none =>
      refine ⟨?_, fun k hk => ?_⟩
      · simp [setM21AttributeFromAttribute, h, Option.getD]
      · simp only [setM21AttributeFromAttribute, h]
        rw [if_neg (by simpa using hk)]
    | some n =>
      refine ⟨?_, fun k hk => ?_⟩
      · simp [setM21AttributeFromAttribute, h, Option.getD]
      · simp only [setM21AttributeFromAttribute, h]
        rw [if_neg (by simpa using hk)]

theorem setM21AttributeFromAttribute_spec_witness :
    (∀ k, setM21AttributeFromAttribute (fun n => if n = "pageNumber" then some (.int 4) else none)
        (.mk "page-layout" [] none [] none) "page-number" none none k
      = (fun n => if n = "pageNumber" then some (PyVal.int 4) else none) k) ∧
    setM21AttributeFromAttribute (fun _ => none)
        (.mk "page-layout" [("page-number", "")] none [] none) "page-number" none none
        "pageNumber" = some (PyVal.str "") :=
  ⟨setM21AttributeFromAttribute_spec.1
      (fun n => if n = "pageNumber" then some (.int 4) else none)
      (.mk "page-layout" [] none [] none) "page-number" none none rfl,
   (setM21AttributeFromAttribute_spec.2 (fun _ => none)
      (.mk "page-layout" [("page-number", "")] none [] none) "page-number" none none ""
      rfl).1⟩

/-! ### C4: ordered insertion -/

theorem getD_eq_get {α : Type} [Inhabited α] (l : List α) (j : Nat)
    (hj : j < l.length) : l.getD j default = l.get ⟨j, hj⟩ := by
  rw [List.getD_eq_getElem?_getD, List.getElem?_eq_getElem hj]
  rfl

theorem foldl_min_le_init (l : List Nat) (n : Nat) : l.foldl Nat.min n ≤ n := by
  induction l generalizing n with
  | nil => exact Nat.le_refl n
  | cons x xs ih => exact Nat.le_trans (ih (Nat.min n x)) (Nat.min_le_left n x)

theorem foldl_min_le_mem {l : List Nat} {x : Nat} (h : x ∈ l) (n : Nat) :
    l.foldl Nat.min n ≤ x := by
  induction l generalizing n with
  | nil => cases h
  | cons y ys ih =>
    rcases List.mem_cons.mp h with rfl | h'
    · exact Nat.le_trans (foldl_min_le_init ys (Nat.min n x)) (Nat.min_le_right n x)
    · exact ih h' (Nat.min n y)

theorem foldl_min_eq_or_mem (l : List Nat) (n : Nat) :
    l.foldl Nat.min n = n ∨ l.foldl Nat.min n ∈ l := by
  induction l generalizing n with
  | nil => exact Or.inl rfl
  | cons x xs ih =>
    rcases ih (Nat.min n x) with h | h
    · rw [List.foldl_cons, h]
      rcases Nat.le_total n x with hnx | hxn
      · exact Or.inl (by unfold Nat.min; exact inf_eq_left.mpr hnx)
      · refine Or.inr ?_
        have hx : Nat.min n x = x := by unfold Nat.min; exact inf_eq_right.mpr hxn
        rw [hx]
        exact List.mem_cons_self x xs
    · exact Or.inr (List.mem_cons_of_mem x h)

/-- C4: `insertBeforeElements` appends `insert` as the parent's last child
when `tagList` is `None` or empty; otherwise it places `insert` at the
minimum of the set consisting of the current number of children and the
index of every direct child whose tag is in `tagList` — in particular for a
parent with children `[sign, line]` and `tagList` `['line']` the result is
`[sign, insert, line]`, and with no `tagList` the new child goes at the
end. -/
theorem insertBeforeElements_spec :
    (∀ root insert : Element,
      (insertBeforeElements root insert none).children = root.children ++ [insert] ∧
      (insertBeforeElements root insert (some [])).children
        = root.children ++ [insert]) ∧
    (∀ (root insert : Element) (ts : List String), ts ≠ [] → ∃ m,
      (insertBeforeElements root insert (some ts)).children
          = root.children.take m ++ insert :: root.children.drop m ∧
      m ≤ root.children.length ∧
      (∀ j, (hj : j < root.children.length) →
        ts.contains (root.children.get ⟨j, hj⟩).tag → m ≤ j) ∧
      (m = root.children.length ∨
        ∃ hm : m < root.children.length,
          ts.contains (root.children.get ⟨m, hm⟩).tag)) ∧
    (∀ sign line insert : Element, sign.tag = "sign" → line.tag = "line" →
      (insertBeforeElements (.mk "clef" [] none [sign, line] none) insert
          (some ["line"])).children = [sign, insert, line]) := by
  refine ⟨fun root insert => ?_, fun root insert ts hts => ?_,
    fun sign line insert hs hl => ?_⟩
  · cases root with
    | mk t a tx cs tl => exact ⟨rfl, rfl⟩
  · cases root with
    | mk t a tx cs tl =>
      simp only [Element.children]
      cases ts with
      | nil => exact absurd rfl hts
      | cons t0 ts' =>
        refine ⟨((List.range cs.length).filter
            (fun j => (t0 :: ts').contains (cs.getD j default).tag)).foldl
              Nat.min cs.length, rfl, ?_, ?_, ?_⟩
        · exact foldl_min_le_init _ _
        · intro j hj htag
          apply foldl_min_le_mem
          apply List.mem_filter.mpr
          refine ⟨List.mem_range.mpr hj, ?_⟩
          rw [getD_eq_get cs j hj]
          exact htag
        · rcases foldl_min_eq_or_mem ((List.range cs.length).filter
              (fun j => (t0 :: ts').contains (cs.getD j default).tag)) cs.length
            with h | h
          · exact Or.inl h
          · rcases List.mem_filter.mp h with ⟨hr, htag⟩
            have hm : _ < cs.length := List.mem_range.mp hr
            refine Or.inr ⟨hm, ?_⟩
            rw [getD_eq_get cs _ hm] at htag
            exact htag
  · cases sign with
    | mk st sa stx scs stl =>
      cases line with
      | mk lt' la ltx lcs ltl =>
        simp only [Element.tag] at hs hl
        subst hs
        subst hl
        rfl

theorem insertBeforeElements_spec_witness :
    (insertBeforeElements
        (.mk "clef" [] none
          [.mk "sign" [] (some "G") [] none, .mk "line" [] (some "4") [] none] none)
        (.mk "foo" [] none [] none) (some ["line"])).children
      = [.mk "sign" [] (some "G") [] none, .mk "foo" [] none [] none,
         .mk "line" [] (some "4") [] none] :=
  insertBeforeElements_spec.2.2 (.mk "sign" [] (some "G") [] none)
    (.mk "line" [] (some "4") [] none) (.mk "foo" [] none [] none) rfl rfl

/-! ### C10: `indent` and the last child's tail -/

theorem indentList_length (level : Nat) (cs : List Element) :
    (indentList level cs).length = cs.length := by
  induction cs with
  | nil => rfl
  | cons e es ih => simp [indentList, ih]

theorem setLastTail_length (i : String) (cs : List Element) :
    (setLastTail i cs).length = cs.length := by
  induction cs with
  | nil => rfl
  | cons e es ih =>
    cases es with
    | nil => rfl
    | cons e' es' => simpa [setLastTail] using ih

theorem setLastTail_getLast_tail (i : String) :
    ∀ cs : List Element, cs ≠ [] →
      ((setLastTail i cs).map Element.tail).getLast? = some (some i)
  | [], h => absurd rfl h
  | [e], _ => by cases e with | mk t a tx cs tl => rfl
  | e :: e' :: es, _ => by
    have ih := setLastTail_getLast_tail i (e' :: es) (by simp)
    cases hne : setLastTail i (e' :: es) with
    | nil =>
      have hlen := setLastTail_length i (e' :: es)
      rw [hne] at hlen
      simp at hlen
    | cons x xs =>
      have hstep : setLastTail i (e :: e' :: es) = e :: x :: xs := by
        rw [show setLastTail i (e :: e' :: es) = e :: setLastTail i (e' :: es)
          from rfl, hne]
      rw [hstep, List.map_cons, List.map_cons, List.getLast?_cons_cons]
      rw [hne, List.map_cons] at ih
      exact ih

theorem setLastTail_getElem?_of_lt (i : String) :
    ∀ (cs : List Element) (j : Nat), j + 1 < cs.length →
      (setLastTail i cs)[j]? = cs[j]?
  | [], j, h => by simp at h
  | [e], j, h => by simp at h
  | e :: e' :: es, 0, _ => by
    rw [show setLastTail i (e :: e' :: es) = e :: setLastTail i (e' :: es) from rfl]
    rw [List.getElem?_cons_zero, List.getElem?_cons_zero]
  | e :: e' :: es, j + 1, h => by
    rw [show setLastTail i (e :: e' :: es) = e :: setLastTail i (e' :: es) from rfl]
    rw [List.getElem?_cons_succ, List.getElem?_cons_succ]
    exact setLastTail_getElem?_of_lt i (e' :: es) j (by simpa using h)

theorem indentList_getElem? (level : Nat) :
    ∀ (cs : List Element) (j : Nat),
      (indentList level cs)[j]? = (cs[j]?).map (indentEl level)
  | [], j => by simp [indentList]
  | e :: es, 0 => by
    rw [show indentList level (e :: es) = indentEl level e :: indentList level es
      from rfl]
    rw [List.getElem?_cons_zero, List.getElem?_cons_zero]
    rfl
  | e :: es, j + 1 => by
    rw [show indentList level (e :: es) = indentEl level e :: indentList level es
        from rfl]
    rw [List.getElem?_cons_succ, List.getElem?_cons_succ]
    exact indentList_getElem? level es j

/-- The function `indent` only ever writes a blank tail over a blank tail of the node it
is called on (the last-child override happens one level up). -/
theorem indentEl_tail_of_not_blank (level : Nat) (e : Element)
    (h : pyBlank e.tail = false) : (indentEl level e).tail = e.tail := by
  cases e with
  | mk t a tx cs tl =>
    simp only [Element.tail] at h ⊢
    unfold indentEl
    cases cs with
    | nil =>
      simp only [List.isEmpty_nil, Bool.not_true, Bool.false_eq_true, if_false]
      rw [h]
      simp [Element.tail]
    | cons c cs' =>
      simp only [List.isEmpty_cons, Bool.not_false, if_true, h]
      simp [Element.tail, h]

/-- C10: for every node with at least one child, `indent` overwrites the
last child's tail with the node-level indent string (even when that tail
held non-whitespace text), while a non-last child whose tail holds
non-whitespace text keeps that tail. -/
theorem indent_overwrites_last_child_tail :
    ∀ (level : Nat) (e : Element), e.children ≠ [] →
      (((indentEl level e).children.map Element.tail).getLast?
          = some (some (levelIndent level))) ∧
      (∀ (j : Nat) (c : Element), j + 1 < e.children.length →
        e.children[j]? = some c → pyBlank c.tail = false →
        ((indentEl level e).children[j]?).map Element.tail = some c.tail) := by
  intro level e he
  cases e with
  | mk ta a tx cs tl =>
    simp only [Element.children] at he
    obtain ⟨c0, cs0, rfl⟩ : ∃ c0 cs0, cs = c0 :: cs0 := by
      cases cs with
      | nil => exact absurd rfl he
      | cons c0 cs0 => exact ⟨c0, cs0, rfl⟩
    have hchildren : (indentEl level (Element.mk ta a tx (c0 :: cs0) tl)).children
        = setLastTail (levelIndent level) (indentList (level + 1) (c0 :: cs0)) := rfl
    constructor
    · rw [hchildren]
      apply setLastTail_getLast_tail
      intro hnil
      have hlen := indentList_length (level + 1) (c0 :: cs0)
      rw [hnil] at hlen
      simp at hlen
    · intro j c hj hcj hblank
      simp only [Element.children] at hj hcj
      rw [hchildren]
      rw [setLastTail_getElem?_of_lt _ _ j
        (by rw [indentList_length]; exact hj)]
      rw [indentList_getElem?, hcj]
      have hred : ((some c).map (indentEl (level + 1))).map Element.tail
          = some ((indentEl (level + 1) c).tail) := rfl
      rw [hred, indentEl_tail_of_not_blank (level + 1) c hblank]

theorem indent_overwrites_last_child_tail_witness :
    ((indentEl 0 (.mk "clef" [] none
        [.mk "sign" [] (some "G") [] (some "keep "),
         .mk "line" [] (some "4") [] (some "gone ")] none)).children.map
      Element.tail).getLast? = some (some (levelIndent 0)) ∧
    ((indentEl 0 (.mk "clef" [] none
        [.mk "sign" [] (some "G") [] (some "keep "),
         .mk "line" [] (some "4") [] (some "gone ")] none)).children[0]?).map
      Element.tail = some (some "keep ") :=
  ⟨(indent_overwrites_last_child_tail 0 _ (by simp [Element.children])).1,
   (indent_overwrites_last_child_tail 0 _ (by simp [Element.children])).2 0
      (.mk "sign" [] (some "G") [] (some "keep ")) (by simp [Element.children])
      (by simp [Element.children]) (by decide)⟩

/-! ### Order theory of the embedded Python string comparison -/

theorem Char.toNat_inj {c d : Char} (h : c.toNat = d.toNat) : c = d := by
  apply Char.eq_of_val_eq
  exact UInt32.toNat.inj h

theorem pyCharsLt_irrefl : ∀ l : List Char, pyCharsLt l l = false
  | [] => rfl
  | a :: as => by
    unfold pyCharsLt
    rw [if_neg (Nat.lt_irrefl a.toNat), if_neg (Nat.lt_irrefl a.toNat)]
    exact pyCharsLt_irrefl as

theorem pyCharsLt_asymm : ∀ l m : List Char,
    pyCharsLt l m = true → pyCharsLt m l = false
  | [], [], h => by cases h
  | [], _ :: _, _ => rfl
  | _ :: _, [], h => by cases h
  | a :: as, b :: bs, h => by
    unfold pyCharsLt at h ⊢
    rcases Nat.lt_trichotomy a.toNat b.toNat with hab | hab | hab
    · rw [if_neg (Nat.lt_asymm hab), if_pos hab]
    · rw [if_neg (by omega), if_neg (by omega)] at h ⊢
      exact pyCharsLt_asymm as bs h
    · rw [if_neg (Nat.lt_asymm hab), if_pos hab] at h
      cases h

theorem pyCharsLt_trans : ∀ l m r : List Char,
    pyCharsLt l m = true → pyCharsLt m r = true → pyCharsLt l r = true
  | [], [], _, h, _ => by cases h
  | [], _ :: _, [], _, h => by cases h
  | [], _ :: _, _ :: _, _, _ => rfl
  | _ :: _, [], _, h, _ => by cases h
  | _ :: _, _ :: _, [], _, h => by cases h
  | a :: as, b :: bs, c :: cs, h1, h2 => by
    unfold pyCharsLt at h1 h2 ⊢
    rcases Nat.lt_trichotomy a.toNat b.toNat with hab | hab | hab
    · rcases Nat.lt_trichotomy b.toNat c.toNat with hbc | hbc | hbc
      · rw [if_pos (Nat.lt_trans hab hbc)]
      · rw [if_pos (hbc ▸ hab)]
      · rw [if_neg (Nat.lt_asymm hbc), if_pos hbc] at h2
        cases h2
    · rw [if_neg (by omega), if_neg (by omega)] at h1
      rcases Nat.lt_trichotomy b.toNat c.toNat with hbc | hbc | hbc
      · rw [if_pos (hab ▸ hbc)]
      · rw [if_neg (by omega), if_neg (by omega)] at h2 ⊢
        exact pyCharsLt_trans as bs cs h1 h2
      · rw [if_neg (Nat.lt_asymm hbc), if_pos hbc] at h2
        cases h2
    · rw [if_neg (Nat.lt_asymm hab), if_pos hab] at h1
      cases h1

theorem pyCharsLt_total : ∀ l m : List Char,
    l ≠ m → pyCharsLt l m = true ∨ pyCharsLt m l = true
  | [], [], h => absurd rfl h
  | [], _ :: _, _ => Or.inl rfl
  | _ :: _, [], _ => Or.inr rfl
  | a :: as, b :: bs, h => by
    rcases Nat.lt_trichotomy a.toNat b.toNat with hab | hab | hab
    · exact Or.inl (by unfold pyCharsLt; rw [if_pos hab])
    · have hchar : a = b := Char.toNat_inj hab
      subst hchar
      have hne : as ≠ bs := fun hh => h (hh ▸ rfl)
      rcases pyCharsLt_total as bs hne with h' | h'
      · exact Or.inl (by
          unfold pyCharsLt
          rw [if_neg (Nat.lt_irrefl _), if_neg (Nat.lt_irrefl _)]
          exact h')
      · exact Or.inr (by
          unfold pyCharsLt
          rw [if_neg (Nat.lt_irrefl _), if_neg (Nat.lt_irrefl _)]
          exact h')
    · exact Or.inr (by unfold pyCharsLt; rw [if_pos hab])

/-! ### Decimal-representation injectivity for canonical numeric prefixes -/

/-- The integer value of a run of decimal digits (big-endian), exactly the
accumulator loop of `int()` on a digit string. -/
def charsVal (cs : List Char) : Nat := cs.foldl (fun a c => 10 * a + digitVal c) 0

theorem pyIntDigits_of_ne_nil {cs : List Char} (h : cs ≠ []) :
    pyIntDigits cs = some (charsVal cs) := by
  cases cs with
  | nil => exact absurd rfl h
  | cons c cs' => rfl

theorem isDigit_toNat_bounds {c : Char} (h : c.isDigit = true) :
    48 ≤ c.toNat ∧ c.toNat ≤ 57 := by
  simp [Char.isDigit] at h
  obtain ⟨h1, h2⟩ := h
  have n1 : (48 : UInt32).toNat ≤ c.val.toNat := h1
  have n2 : c.val.toNat ≤ (57 : UInt32).toNat := h2
  exact ⟨n1, n2⟩

theorem digitVal_lt_ten {c : Char} (h : pyIsNumeric c = true) : digitVal c < 10 := by
  have hb := isDigit_toNat_bounds h
  unfold digitVal
  omega

theorem digitVal_inj {c d : Char} (hc : pyIsNumeric c = true)
    (hd : pyIsNumeric d = true) (h : digitVal c = digitVal d) : c = d := by
  have hbc := isDigit_toNat_bounds hc
  have hbd := isDigit_toNat_bounds hd
  unfold digitVal at h
  exact Char.toNat_inj (by omega)

theorem digitVal_zero_iff {c : Char} (hc : pyIsNumeric c = true) :
    digitVal c = 0 ↔ c = '0' := by
  constructor
  · intro h
    have hb := isDigit_toNat_bounds hc
    unfold digitVal at h
    have h48 : c.toNat = 48 := by omega
    exact Char.toNat_inj (by rw [h48]; rfl)
  · intro h
    subst h
    rfl

theorem charsVal_append_digit (cs : List Char) (c : Char) :
    charsVal (cs ++ [c]) = 10 * charsVal cs + digitVal c := by
  unfold charsVal
  rw [List.foldl_append]
  rfl

theorem charsVal_eq_ofDigits (cs : List Char) :
    charsVal cs = Nat.ofDigits 10 ((cs.map digitVal).reverse) := by
  induction cs using List.reverseRecOn with
  | nil => rfl
  | append_singleton cs c ih =>
    rw [charsVal_append_digit, List.map_append, List.reverse_append]
    simp only [List.map_cons, List.map_nil, List.reverse_cons, List.reverse_nil,
      List.nil_append, List.cons_append]
    rw [Nat.ofDigits_cons, ih]
    ring

theorem charsVal_pos {c : Char} {cs : List Char} (hc : pyIsNumeric c = true)
    (h0 : c ≠ '0') : 0 < charsVal (c :: cs) := by
  have hpos : 0 < digitVal c := by
    rcases Nat.eq_zero_or_pos (digitVal c) with h | h
    · exact absurd ((digitVal_zero_iff hc).mp h) h0
    · exact h
  unfold charsVal
  rw [List.foldl_cons]
  have : ∀ (l : List Char) (a : Nat), 0 < a →
      0 < l.foldl (fun a c => 10 * a + digitVal c) a := by
    intro l
    induction l with
    | nil => intro a ha; exact ha
    | cons d ds ih =>
      intro a ha
      rw [List.foldl_cons]
      exact ih _ (by omega)
  exact this cs _ (by unfold digitVal at hpos ⊢; omega)

/-- A canonical numeric prefix: no leading zero (either the single digit
`'0'` or a run not starting with `'0'`). -/
def noLeadingZero (cs : List Char) : Prop := cs = ['0'] ∨ cs.head? ≠ some '0'

instance (cs : List Char) : Decidable (noLeadingZero cs) := by
  unfold noLeadingZero
  infer_instance

theorem map_digitVal_inj : ∀ xs ys : List Char,
    (∀ c ∈ xs, pyIsNumeric c = true) → (∀ c ∈ ys, pyIsNumeric c = true) →
    xs.map digitVal = ys.map digitVal → xs = ys
  | [], [], _, _, _ => rfl
  | [], _ :: _, _, _, h => by cases h
  | _ :: _, [], _, _, h => by cases h
  | x :: xs', y :: ys', hx, hy, h => by
    rw [List.map_cons, List.map_cons] at h
    injection h with h1 h2
    have hxy : x = y := digitVal_inj (hx x (List.mem_cons_self x xs'))
      (hy y (List.mem_cons_self y ys')) h1
    rw [hxy, map_digitVal_inj xs' ys'
      (fun c hc => hx c (List.mem_cons_of_mem x hc))
      (fun c hc => hy c (List.mem_cons_of_mem y hc)) h2]

theorem digits_charsVal {cs : List Char} (hdig : ∀ c ∈ cs, pyIsNumeric c = true)
    (hne : cs ≠ []) (h0 : cs.head? ≠ some '0') :
    Nat.digits 10 (charsVal cs) = (cs.map digitVal).reverse := by
  rw [charsVal_eq_ofDigits]
  apply Nat.digits_ofDigits 10 (by norm_num)
  · intro l hl
    rw [List.mem_reverse] at hl
    rcases List.mem_map.mp hl with ⟨ch, hch, rfl⟩
    exact digitVal_lt_ten (hdig ch hch)
  · intro hrne
    intro hlast
    cases cs with
    | nil => exact absurd rfl hne
    | cons c cs' =>
      have hch : c ≠ '0' := fun hh => h0 (by rw [hh]; rfl)
      have hget : ((c :: cs').map digitVal).reverse.getLast? = some (digitVal c) := by
        rw [List.getLast?_reverse]
        rfl
      rw [List.getLast?_eq_getLast _ hrne, hlast] at hget
      have : digitVal c = 0 := by
        injection hget with hg
        exact hg.symm
      exact hch ((digitVal_zero_iff (hdig c (List.mem_cons_self c cs'))).mp this)

theorem charsVal_inj (cs ds : List Char)
    (hcd : ∀ c ∈ cs, pyIsNumeric c = true) (hdd : ∀ c ∈ ds, pyIsNumeric c = true)
    (hc0 : noLeadingZero cs) (hd0 : noLeadingZero ds)
    (hcne : cs ≠ []) (hdne : ds ≠ [])
    (hval : charsVal cs = charsVal ds) : cs = ds := by
  have zeroCase : ∀ es : List Char, (∀ c ∈ es, pyIsNumeric c = true) →
      noLeadingZero es → es ≠ [] → charsVal es = 0 → es = ['0'] := by
    intro es hed he0 hene hev
    rcases he0 with he0 | he0
    · exact he0
    · cases es with
      | nil => exact absurd rfl hene
      | cons e es' =>
        have hech : e ≠ '0' := fun hh => he0 (by rw [hh]; rfl)
        have hpos := @charsVal_pos e es' (hed e (List.mem_cons_self e es')) hech
        omega
  by_cases hz : charsVal cs = 0
  · rw [zeroCase cs hcd hc0 hcne hz, zeroCase ds hdd hd0 hdne (by omega)]
  · have hc0' : cs.head? ≠ some '0' := by
      rcases hc0 with hc0 | hc0
      · rw [hc0] at hz
        exact absurd rfl hz
      · exact hc0
    have hd0' : ds.head? ≠ some '0' := by
      rcases hd0 with hd0 | hd0
      · rw [hd0] at hval
        rw [show charsVal (['0'] : List Char) = 0 from rfl] at hval
        exact absurd hval hz
      · exact hd0
    have h1 := digits_charsVal hcd hcne hc0'
    have h2 := digits_charsVal hdd hdne hd0'
    have hrev : (cs.map digitVal).reverse = (ds.map digitVal).reverse := by
      rw [← h1, ← h2, hval]
    exact map_digitVal_inj cs ds hcd hdd (List.reverse_inj.mp hrev)

/-! ### C1 and C2: the order on valid measure identifiers -/

/-- The numeric prefix of a measure identifier. -/
def numPart (s : String) : List Char := s.data.takeWhile pyIsNumeric

/-- The suffix of a measure identifier. -/
def sufPart (s : String) : List Char := s.data.dropWhile pyIsNumeric

theorem numPart_ne_nil {s : String} (h : validMeasureNumber s = true) :
    numPart s ≠ [] := by
  unfold validMeasureNumber at h
  unfold numPart
  intro hh
  rw [hh] at h
  cases h

theorem numPart_digits (s : String) : ∀ c ∈ numPart s, pyIsNumeric c = true :=
  fun _ hc => List.mem_takeWhile_imp hc

theorem string_eq_of_parts {x y : String} (hn : numPart x = numPart y)
    (hs : sufPart x = sufPart y) : x = y := by
  have hx : x.data = numPart x ++ sufPart x :=
    (List.takeWhile_append_dropWhile pyIsNumeric x.data).symm
  have hy : y.data = numPart y ++ sufPart y :=
    (List.takeWhile_append_dropWhile pyIsNumeric y.data).symm
  have hdata : x.data = y.data := by rw [hx, hy, hn, hs]
  cases x
  cases y
  exact congrArg String.mk hdata

theorem measureNumberComesBefore_valid_reduce {x y : String}
    (hvx : validMeasureNumber x = true) (hvy : validMeasureNumber y = true)
    (hne : x ≠ y) :
    measureNumberComesBefore x y
      = if charsVal (numPart x) ≠ charsVal (numPart y)
          then some (decide (charsVal (numPart x) < charsVal (numPart y)))
          else some (!(pyCharsLt (sufPart y) (sufPart x))) := by
  unfold measureNumberComesBefore
  rw [if_neg hne]
  rw [show (splitSuffix x.data).1 = numPart x from rfl,
    show (splitSuffix y.data).1 = numPart y from rfl,
    pyIntDigits_of_ne_nil (numPart_ne_nil hvx),
    pyIntDigits_of_ne_nil (numPart_ne_nil hvy)]
  rfl

/-- The strict key order realized by the comparator on valid canonical
identifiers: numeric value first, then the Python lexicographic order on the
suffixes. -/
def measureKeyLt (x y : String) : Prop :=
  charsVal (numPart x) < charsVal (numPart y) ∨
    (charsVal (numPart x) = charsVal (numPart y) ∧
      pyCharsLt (sufPart x) (sufPart y) = true)

theorem numPart_eq_of_charsVal_eq {x y : String}
    (hvx : validMeasureNumber x = true) (hvy : validMeasureNumber y = true)
    (hcx : noLeadingZero (numPart x)) (hcy : noLeadingZero (numPart y))
    (h : charsVal (numPart x) = charsVal (numPart y)) : numPart x = numPart y :=
  charsVal_inj (numPart x) (numPart y) (numPart_digits x) (numPart_digits y)
    hcx hcy (numPart_ne_nil hvx) (numPart_ne_nil hvy) h

theorem measureNumberComesBefore_true_iff {x y : String}
    (hvx : validMeasureNumber x = true) (hvy : validMeasureNumber y = true)
    (hcx : noLeadingZero (numPart x)) (hcy : noLeadingZero (numPart y)) :
    measureNumberComesBefore x y = some true ↔ measureKeyLt x y := by
  by_cases hne : x = y
  · subst hne
    constructor
    · intro h
      rw [show measureNumberComesBefore x x = some false by
        unfold measureNumberComesBefore; rw [if_pos rfl]] at h
      cases h
    · intro h
      rcases h with h | ⟨_, h⟩
      · exact absurd rfl (Nat.ne_of_lt h)
      · rw [pyCharsLt_irrefl] at h
        cases h
  · rw [measureNumberComesBefore_valid_reduce hvx hvy hne]
    by_cases hv : charsVal (numPart x) = charsVal (numPart y)
    · rw [if_neg (by simpa using hv)]
      rw [Option.some.injEq]
      have hnp := numPart_eq_of_charsVal_eq hvx hvy hcx hcy hv
      have hsuf : sufPart x ≠ sufPart y :=
        fun hs => hne (string_eq_of_parts hnp hs)
      constructor
      · intro h
        refine Or.inr ⟨hv, ?_⟩
        have hyx : pyCharsLt (sufPart y) (sufPart x) = false := by
          simpa using h
        rcases pyCharsLt_total (sufPart x) (sufPart y) hsuf with ht | ht
        · exact ht
        · rw [ht] at hyx
          cases hyx
      · intro h
        rcases h with h | ⟨_, h⟩
        · exact absurd hv (Nat.ne_of_lt h)
        · rw [pyCharsLt_asymm _ _ h]
          rfl
    · rw [if_pos (by simpa using hv)]
      rw [Option.some.injEq]
      constructor
      · intro h'
        exact Or.inl (of_decide_eq_true h')
      · intro h
        rcases h with h | ⟨he, _⟩
        · rw [decide_eq_true h]
        · exact absurd he hv

theorem measureKeyLt_trans {x y z : String} (h1 : measureKeyLt x y)
    (h2 : measureKeyLt y z) : measureKeyLt x z := by
  rcases h1 with h1 | ⟨he1, hs1⟩
  · rcases h2 with h2 | ⟨he2, _⟩
    · exact Or.inl (Nat.lt_trans h1 h2)
    · exact Or.inl (he2 ▸ h1)
  · rcases h2 with h2 | ⟨he2, hs2⟩
    · exact Or.inl (he1 ▸ h2)
    · exact Or.inr ⟨he1.trans he2, pyCharsLt_trans _ _ _ hs1 hs2⟩

/-- C1 counterexample: for the valid measure identifiers `"1a"` and
`"01a"` (equal numeric values, equal suffixes, different strings) the
comparator answers `True` in both directions, so the three alternatives of
the claimed trichotomy are not mutually exclusive. -/
theorem measureNumberComesBefore_trichotomy_counterexample :
    validMeasureNumber "1a" = true ∧ validMeasureNumber "01a" = true ∧
    ("1a" : String) ≠ "01a" ∧
    measureNumberComesBefore "1a" "01a" = some true ∧
    measureNumberComesBefore "01a" "1a" = some true := by
  refine ⟨by decide, by decide, by decide, by decide, by decide⟩

/-- C1 (amended): for valid measure identifiers whose numeric prefixes
carry no leading zero, exactly one of `measureNumberComesBefore x y`,
`measureNumberComesBefore y x` and `x = y` holds. -/
theorem measureNumberComesBefore_trichotomy (x y : String)
    (hvx : validMeasureNumber x = true) (hvy : validMeasureNumber y = true)
    (hcx : noLeadingZero (numPart x)) (hcy : noLeadingZero (numPart y)) :
    (measureNumberComesBefore x y = some true ∧
      ¬measureNumberComesBefore y x = some true ∧ ¬x = y) ∨
    (¬measureNumberComesBefore x y = some true ∧
      measureNumberComesBefore y x = some true ∧ ¬x = y) ∨
    (¬measureNumberComesBefore x y = some true ∧
      ¬measureNumberComesBefore y x = some true ∧ x = y) := by
  have hiff := measureNumberComesBefore_true_iff hvx hvy hcx hcy
  have hiff' := measureNumberComesBefore_true_iff hvy hvx hcy hcx
  by_cases hne : x = y
  · subst hne
    refine Or.inr (Or.inr ⟨?_, ?_, rfl⟩)
    · intro h
      rcases hiff.mp h with h' | ⟨_, h'⟩
      · exact absurd rfl (Nat.ne_of_lt h')
      · rw [pyCharsLt_irrefl] at h'
        cases h'
    · intro h
      rcases hiff'.mp h with h' | ⟨_, h'⟩
      · exact absurd rfl (Nat.ne_of_lt h')
      · rw [pyCharsLt_irrefl] at h'
        cases h'
  · rcases Nat.lt_trichotomy (charsVal (numPart x)) (charsVal (numPart y))
      with hv | hv | hv
    · refine Or.inl ⟨hiff.mpr (Or.inl hv), ?_, hne⟩
      intro h
      rcases hiff'.mp h with h' | ⟨he', _⟩
      · omega
      · omega
    · have hnp := numPart_eq_of_charsVal_eq hvx hvy hcx hcy hv
      have hsuf : sufPart x ≠ sufPart y :=
        fun hs => hne (string_eq_of_parts hnp hs)
      rcases pyCharsLt_total (sufPart x) (sufPart y) hsuf with ht | ht
      · refine Or.inl ⟨hiff.mpr (Or.inr ⟨hv, ht⟩), ?_, hne⟩
        intro h
        rcases hiff'.mp h with h' | ⟨_, h'⟩
        · omega
        · rw [pyCharsLt_asymm _ _ ht] at h'
          cases h'
      · refine Or.inr (Or.inl ⟨?_, hiff'.mpr (Or.inr ⟨hv.symm, ht⟩), hne⟩)
        intro h
        rcases hiff.mp h with h' | ⟨_, h'⟩
        · omega
        · rw [pyCharsLt_asymm _ _ ht] at h'
          cases h'
    · refine Or.inr (Or.inl ⟨?_, hiff'.mpr (Or.inl hv), hne⟩)
      intro h
      rcases hiff.mp h with h' | ⟨he', _⟩
      · omega
      · omega

theorem measureNumberComesBefore_trichotomy_witness :
    (measureNumberComesBefore "23" "23a" = some true ∧
      ¬measureNumberComesBefore "23a" "23" = some true ∧
      ¬("23" : String) = "23a") ∨
    (¬measureNumberComesBefore "23" "23a" = some true ∧
      measureNumberComesBefore "23a" "23" = some true ∧
      ¬("23" : String) = "23a") ∨
    (¬measureNumberComesBefore "23" "23a" = some true ∧
      ¬measureNumberComesBefore "23a" "23" = some true ∧
      ("23" : String) = "23a") :=
  measureNumberComesBefore_trichotomy "23" "23a" (by decide) (by decide)
    (by decide) (by decide)

/-- C2 counterexample: transitivity fails as claimed over all valid
identifiers: with `x = z = "1a"` and `y = "01a"` both premises hold while
`measureNumberComesBefore x z` is `False`. -/
theorem measureNumberComesBefore_trans_counterexample :
    validMeasureNumber "1a" = true ∧ validMeasureNumber "01a" = true ∧
    measureNumberComesBefore "1a" "01a" = some true ∧
    measureNumberComesBefore "01a" "1a" = some true ∧
    measureNumberComesBefore "1a" "1a" = some false := by
  refine ⟨by decide, by decide, by decide, by decide, by decide⟩

/-- C2 (amended): for valid measure identifiers whose numeric prefixes
carry no leading zero, the comparator is transitive. -/
theorem measureNumberComesBefore_trans (x y z : String)
    (hvx : validMeasureNumber x = true) (hvy : validMeasureNumber y = true)
    (hvz : validMeasureNumber z = true)
    (hcx : noLeadingZero (numPart x)) (hcy : noLeadingZero (numPart y))
    (hcz : noLeadingZero (numPart z))
    (h1 : measureNumberComesBefore x y = some true)
    (h2 : measureNumberComesBefore y z = some true) :
    measureNumberComesBefore x z = some true :=
  (measureNumberComesBefore_true_iff hvx hvz hcx hcz).mpr
    (measureKeyLt_trans
      ((measureNumberComesBefore_true_iff hvx hvy hcx hcy).mp h1)
      ((measureNumberComesBefore_true_iff hvy hvz hcy hcz).mp h2))

theorem measureNumberComesBefore_trans_witness :
    measureNumberComesBefore "23" "24" = some true :=
  measureNumberComesBefore_trans "23" "23a" "24" (by decide) (by decide)
    (by decide) (by decide) (by decide) (by decide) (by decide) (by decide)

/-! ### C3: canonicalization sorts attributes and is attribute-order
independent -/

theorem pyStrLt_irrefl (s : String) : pyStrLt s s = false :=
  pyCharsLt_irrefl s.data

theorem pyStrLt_asymm {s t : String} (h : pyStrLt s t = true) :
    pyStrLt t s = false :=
  pyCharsLt_asymm _ _ h

theorem pyStrLt_trans {s t u : String} (h1 : pyStrLt s t = true)
    (h2 : pyStrLt t u = true) : pyStrLt s u = true :=
  pyCharsLt_trans _ _ _ h1 h2

theorem pyStrLt_total {s t : String} (h : s ≠ t) :
    pyStrLt s t = true ∨ pyStrLt t s = true :=
  pyCharsLt_total s.data t.data
    (fun hd => h (by cases s; cases t; exact congrArg String.mk hd))

theorem pairLt_iff {p q : String × String} :
    pairLt p q = true ↔
      (pyStrLt p.1 q.1 = true ∨ (p.1 = q.1 ∧ pyStrLt p.2 q.2 = true)) := by
  unfold pairLt
  simp

theorem pairLt_asymm {p q : String × String} (h : pairLt p q = true) :
    pairLt q p = false := by
  cases hqp : pairLt q p with
  | false => rfl
  | true =>
    exfalso
    rw [pairLt_iff] at h hqp
    rcases h with h | ⟨he, hs⟩
    · rcases hqp with h' | ⟨he', _⟩
      · rw [pyStrLt_asymm h] at h'
        cases h'
      · rw [he'] at h
        rw [pyStrLt_irrefl] at h
        cases h
    · rcases hqp with h' | ⟨_, hs'⟩
      · rw [he] at h'
        rw [pyStrLt_irrefl] at h'
        cases h'
      · rw [pyStrLt_asymm hs] at hs'
        cases hs'

theorem pairLt_trans {p q r : String × String} (h1 : pairLt p q = true)
    (h2 : pairLt q r = true) : pairLt p r = true := by
  rw [pairLt_iff] at h1 h2 ⊢
  rcases h1 with h1 | ⟨he1, hs1⟩
  · rcases h2 with h2 | ⟨he2, _⟩
    · exact Or.inl (pyStrLt_trans h1 h2)
    · exact Or.inl (he2 ▸ h1)
  · rcases h2 with h2 | ⟨he2, hs2⟩
    · exact Or.inl (he1 ▸ h2)
    · exact Or.inr ⟨he1.trans he2, pyStrLt_trans hs1 hs2⟩

theorem pairLt_total {p q : String × String} (h : p ≠ q) :
    pairLt p q = true ∨ pairLt q p = true := by
  by_cases h1 : p.1 = q.1
  · have h2 : p.2 ≠ q.2 := by
      intro h2
      exact h (Prod.ext h1 h2)
    rcases pyStrLt_total h2 with ht | ht
    · exact Or.inl (pairLt_iff.mpr (Or.inr ⟨h1, ht⟩))
    · exact Or.inr (pairLt_iff.mpr (Or.inr ⟨h1.symm, ht⟩))
  · rcases pyStrLt_total h1 with ht | ht
    · exact Or.inl (pairLt_iff.mpr (Or.inl ht))
    · exact Or.inr (pairLt_iff.mpr (Or.inl ht))

instance : IsTrans (String × String) PairLe where
  trans := by
    intro p q r h1 h2
    rcases h1 with h1 | rfl
    · rcases h2 with h2 | rfl
      · exact Or.inl (pairLt_trans h1 h2)
      · exact Or.inl h1
    · exact h2

instance : IsAntisymm (String × String) PairLe where
  antisymm := by
    intro p q h1 h2
    rcases h1 with h1 | rfl
    · rcases h2 with h2 | rfl
      · rw [pairLt_asymm h1] at h2
        cases h2
      · rfl
    · rfl

instance : IsTotal (String × String) PairLe where
  total := by
    intro p q
    by_cases h : p = q
    · exact Or.inl (Or.inr h)
    · rcases pairLt_total h with ht | ht
      · exact Or.inl (Or.inl ht)
      · exact Or.inr (Or.inl ht)

theorem pySortPairs_sorted (l : List (String × String)) :
    List.Sorted PairLe (pySortPairs l) :=
  List.sorted_insertionSort PairLe l

theorem pySortPairs_perm (l : List (String × String)) :
    (pySortPairs l).Perm l :=
  List.perm_insertionSort PairLe l

theorem pySortPairs_eq_of_perm {l1 l2 : List (String × String)}
    (h : l1.Perm l2) : pySortPairs l1 = pySortPairs l2 :=
  List.eq_of_perm_of_sorted
    ((pySortPairs_perm l1).trans (h.trans (pySortPairs_perm l2).symm))
    (pySortPairs_sorted l1) (pySortPairs_sorted l2)

/-- The attribute rewriting done on one node by `dumpString`, on perm-related
dicts, produces equal dicts. -/
theorem sortStep_eq_of_perm {a1 a2 : List (String × String)} (h : a1.Perm a2) :
    (if 1 < a1.length then pySortPairs a1 else a1)
      = (if 1 < a2.length then pySortPairs a2 else a2) := by
  have hlen : a1.length = a2.length := h.length_eq
  by_cases hl : 1 < a1.length
  · rw [if_pos hl, if_pos (hlen ▸ hl)]
    exact pySortPairs_eq_of_perm h
  · rw [if_neg hl, if_neg (by omega)]
    cases a1 with
    | nil =>
      have := h.symm
      rw [List.perm_nil] at this
      rw [this]
    | cons p ps =>
      cases ps with
      | nil =>
        have h2 : a2 = [p] := List.perm_singleton.mp h.symm
        rw [h2]
      | cons p' ps' =>
        simp at hl

mutual

/-- Two trees differ only in the insertion order of their attributes: same
tags, texts, tails and tree shape, with each node's attribute dict a
permutation of the other's. -/
def attribPermEl : Element → Element → Prop
  | .mk t1 a1 tx1 cs1 tl1, .mk t2 a2 tx2 cs2 tl2 =>
    t1 = t2 ∧ a1.Perm a2 ∧ tx1 = tx2 ∧ attribPermList cs1 cs2 ∧ tl1 = tl2

/-- Pointwise `attribPermEl` on children lists. -/
def attribPermList : List Element → List Element → Prop
  | [], [] => True
  | [], _ :: _ => False
  | _ :: _, [] => False
  | e1 :: es1, e2 :: es2 => attribPermEl e1 e2 ∧ attribPermList es1 es2

end

theorem attribPermList_length : ∀ cs1 cs2 : List Element,
    attribPermList cs1 cs2 → cs1.length = cs2.length
  | [], [], _ => rfl
  | [], _ :: _, h => h.elim
  | _ :: _, [], h => h.elim
  | _ :: es1, _ :: es2, h =>
    congrArg Nat.succ (attribPermList_length es1 es2 h.2)

theorem attribPermEl_setTail {e1 e2 : Element} (i : String)
    (h : attribPermEl e1 e2) : attribPermEl (e1.setTail i) (e2.setTail i) := by
  cases e1 with
  | mk t1 a1 tx1 cs1 tl1 =>
    cases e2 with
    | mk t2 a2 tx2 cs2 tl2 =>
      obtain ⟨ht, ha, htx, hcs, htl⟩ := h
      exact ⟨ht, ha, htx, hcs, rfl⟩

theorem attribPermList_setLastTail (i : String) : ∀ cs1 cs2 : List Element,
    attribPermList cs1 cs2 →
    attribPermList (setLastTail i cs1) (setLastTail i cs2)
  | [], [], _ => trivial
  | [], _ :: _, h => h.elim
  | _ :: _, [], h => h.elim
  | [e1], [e2], h => ⟨attribPermEl_setTail i h.1, trivial⟩
  | [e1], e2 :: e2' :: es2, h => h.2.elim
  | e1 :: e1' :: es1, [e2], h => h.2.elim
  | e1 :: e1' :: es1, e2 :: e2' :: es2, h =>
    ⟨h.1, attribPermList_setLastTail i (e1' :: es1) (e2' :: es2) h.2⟩

theorem attribPermList_indentList (lv : Nat) : ∀ cs1 cs2 : List Element,
    attribPermList cs1 cs2 →
    (∀ c ∈ cs1, ∀ d : Element, ∀ lv' : Nat, attribPermEl c d →
      attribPermEl (indentEl lv' c) (indentEl lv' d)) →
    attribPermList (indentList lv cs1) (indentList lv cs2)
  | [], [], _, _ => trivial
  | [], _ :: _, h, _ => h.elim
  | _ :: _, [], h, _ => h.elim
  | e1 :: es1, e2 :: es2, h, hmem => by
    rw [show indentList lv (e1 :: es1) = indentEl lv e1 :: indentList lv es1
      from rfl]
    rw [show indentList lv (e2 :: es2) = indentEl lv e2 :: indentList lv es2
      from rfl]
    exact ⟨hmem e1 (List.mem_cons_self e1 es1) e2 lv h.1,
      attribPermList_indentList lv es1 es2 h.2
        (fun c hc => hmem c (List.mem_cons_of_mem e1 hc))⟩

theorem attribPermEl_indentEl : ∀ e1 e2 : Element, ∀ lv : Nat,
    attribPermEl e1 e2 → attribPermEl (indentEl lv e1) (indentEl lv e2) := by
  have main : ∀ e1 : Element, ∀ e2 : Element, ∀ lv : Nat,
      attribPermEl e1 e2 → attribPermEl (indentEl lv e1) (indentEl lv e2) := by
    refine element_ind ?_
    intro t1 a1 tx1 cs1 tl1 ih e2 lv h
    cases e2 with
    | mk t2 a2 tx2 cs2 tl2 =>
      obtain ⟨ht, ha, htx, hcs, htl⟩ := h
      subst ht
      subst htx
      subst htl
      have hlen := attribPermList_length cs1 cs2 hcs
      cases cs1 with
      | nil =>
        cases cs2 with
        | nil =>
          show attribPermEl
            (if (decide (lv ≠ 0) && pyBlank tl1) = true
              then Element.mk t1 a1 tx1 [] (some (levelIndent lv))
              else Element.mk t1 a1 tx1 [] tl1)
            (if (decide (lv ≠ 0) && pyBlank tl1) = true
              then Element.mk t1 a2 tx1 [] (some (levelIndent lv))
              else Element.mk t1 a2 tx1 [] tl1)
          by_cases hb : (decide (lv ≠ 0) && pyBlank tl1) = true
          · rw [if_pos hb, if_pos hb]
            exact ⟨rfl, ha, rfl, trivial, rfl⟩
          · rw [if_neg hb, if_neg hb]
            exact ⟨rfl, ha, rfl, trivial, rfl⟩
        | cons c2 cs2' => simp at hlen
      | cons c1 cs1' =>
        cases cs2 with
        | nil => simp at hlen
        | cons c2 cs2' =>
          refine ⟨rfl, ha, rfl, ?_, rfl⟩
          exact attribPermList_setLastTail _ _ _
            (attribPermList_indentList _ _ _ hcs
              (fun c hc d lv' hcd => ih c hc d lv' hcd))
  exact main

theorem sortAttribsList_eq : ∀ cs1 cs2 : List Element,
    attribPermList cs1 cs2 →
    (∀ c ∈ cs1, ∀ d : Element, attribPermEl c d →
      sortAttribsEl c = sortAttribsEl d) →
    sortAttribsList cs1 = sortAttribsList cs2
  | [], [], _, _ => rfl
  | [], _ :: _, h, _ => h.elim
  | _ :: _, [], h, _ => h.elim
  | e1 :: es1, e2 :: es2, h, hmem => by
    rw [show sortAttribsList (e1 :: es1) = sortAttribsEl e1 :: sortAttribsList es1
      from rfl]
    rw [show sortAttribsList (e2 :: es2) = sortAttribsEl e2 :: sortAttribsList es2
      from rfl]
    rw [hmem e1 (List.mem_cons_self e1 es1) e2 h.1,
      sortAttribsList_eq es1 es2 h.2
        (fun c hc => hmem c (List.mem_cons_of_mem e1 hc))]

theorem sortAttribsEl_eq_of_attribPerm : ∀ e1 e2 : Element,
    attribPermEl e1 e2 → sortAttribsEl e1 = sortAttribsEl e2 := by
  refine element_ind ?_
  intro t1 a1 tx1 cs1 tl1 ih e2 h
  cases e2 with
  | mk t2 a2 tx2 cs2 tl2 =>
    obtain ⟨ht, ha, htx, hcs, htl⟩ := h
    subst ht
    subst htx
    subst htl
    unfold sortAttribsEl
    rw [sortStep_eq_of_perm ha,
      sortAttribsList_eq cs1 cs2 hcs (fun c hc d hcd => ih c hc d hcd)]

/-- The keys of an attribute dict are pairwise distinct (the `dict`
invariant). -/
def nodupKeysB : List (String × String) → Bool
  | [] => true
  | p :: ps => !(ps.any (fun q => q.1 = p.1)) && nodupKeysB ps

theorem nodupKeysB_iff : ∀ l : List (String × String),
    nodupKeysB l = true ↔ (l.map Prod.fst).Nodup
  | [] => by simp [nodupKeysB]
  | p :: ps => by
    rw [show nodupKeysB (p :: ps)
        = (!(ps.any (fun q => q.1 = p.1)) && nodupKeysB ps) from rfl]
    rw [List.map_cons, List.nodup_cons]
    rw [Bool.and_eq_true, nodupKeysB_iff ps]
    simp only [Bool.not_eq_true', List.any_eq_false, decide_eq_false_iff_not]
    constructor
    · rintro ⟨h1, h2⟩
      refine ⟨?_, h2⟩
      intro hmem
      rcases List.mem_map.mp hmem with ⟨q, hq, hq1⟩
      exact h1 q hq (decide_eq_true hq1)
    · rintro ⟨h1, h2⟩
      exact ⟨fun q hq hq1 => h1 (List.mem_map.mpr ⟨q, hq, of_decide_eq_true hq1⟩), h2⟩

mutual

/-- Every node's attribute dict has pairwise distinct keys. -/
def treeWFb : Element → Bool
  | .mk _ a _ cs _ => nodupKeysB a && treeWFbList cs

/-- Conjunction of `treeWFb` over every element of a list. -/
def treeWFbList : List Element → Bool
  | [] => true
  | e :: es => treeWFb e && treeWFbList es

end

theorem treeWFbList_all : ∀ cs : List Element,
    treeWFbList cs = true ↔ ∀ c ∈ cs, treeWFb c = true
  | [] => by simp [treeWFbList]
  | e :: es => by
    rw [show treeWFbList (e :: es) = (treeWFb e && treeWFbList es) from rfl]
    rw [Bool.and_eq_true, treeWFbList_all es]
    simp

mutual

/-- Python's `el.iter()`: the node itself followed by the subtrees of its children in
document order. -/
def subtreeList : Element → List Element
  | .mk t a tx cs tl => .mk t a tx cs tl :: subtreeListList cs

/-- Concatenation of `subtreeList` over a list of elements. -/
def subtreeListList : List Element → List Element
  | [] => []
  | e :: es => subtreeList e ++ subtreeListList es

end

theorem mem_subtreeListList {n : Element} : ∀ cs : List Element,
    n ∈ subtreeListList cs ↔ ∃ c ∈ cs, n ∈ subtreeList c
  | [] => by simp [subtreeListList]
  | e :: es => by
    rw [show subtreeListList (e :: es) = subtreeList e ++ subtreeListList es
      from rfl]
    rw [List.mem_append, mem_subtreeListList es]
    simp

theorem sortAttribsList_eq_map : ∀ cs : List Element,
    sortAttribsList cs = cs.map sortAttribsEl
  | [] => rfl
  | e :: es => by
    rw [show sortAttribsList (e :: es) = sortAttribsEl e :: sortAttribsList es
      from rfl]
    rw [List.map_cons, sortAttribsList_eq_map es]

theorem sorted_pairLe_nodup_strict {l : List (String × String)}
    (hs : List.Sorted PairLe l) (hn : (l.map Prod.fst).Nodup) :
    l.Pairwise (fun p q => pyStrLt p.1 q.1 = true) := by
  have hn' : l.Pairwise (fun p q => p.1 ≠ q.1) := List.pairwise_map.mp hn
  refine (List.Pairwise.and hs hn').imp ?_
  rintro p q ⟨hle, hne⟩
  rcases hle with hlt | rfl
  · rcases pairLt_iff.mp hlt with h | ⟨he, _⟩
    · exact h
    · exact absurd he hne
  · exact absurd rfl hne

theorem treeWFb_setTail (e : Element) (i : String) :
    treeWFb (e.setTail i) = treeWFb e := by
  cases e with
  | mk t a tx cs tl => rfl

theorem treeWFbList_setLastTail (i : String) : ∀ cs : List Element,
    treeWFbList (setLastTail i cs) = treeWFbList cs
  | [] => rfl
  | [e] => by
    rw [show setLastTail i [e] = [e.setTail i] from rfl]
    rw [show treeWFbList [e.setTail i] = (treeWFb (e.setTail i) && true) from rfl]
    rw [show treeWFbList [e] = (treeWFb e && true) from rfl]
    rw [treeWFb_setTail]
  | e :: e' :: es => by
    rw [show setLastTail i (e :: e' :: es) = e :: setLastTail i (e' :: es)
      from rfl]
    rw [show treeWFbList (e :: setLastTail i (e' :: es))
        = (treeWFb e && treeWFbList (setLastTail i (e' :: es))) from rfl]
    rw [show treeWFbList (e :: e' :: es)
        = (treeWFb e && treeWFbList (e' :: es)) from rfl]
    rw [treeWFbList_setLastTail i (e' :: es)]

theorem indentList_eq_map (lv : Nat) : ∀ cs : List Element,
    indentList lv cs = cs.map (indentEl lv)
  | [] => rfl
  | e :: es => by
    rw [show indentList lv (e :: es) = indentEl lv e :: indentList lv es from rfl]
    rw [List.map_cons, indentList_eq_map lv es]

theorem treeWFb_indentEl : ∀ e : Element, ∀ lv : Nat,
    treeWFb e = true → treeWFb (indentEl lv e) = true := by
  refine element_ind ?_
  intro t a tx cs tl ih lv hwf
  have hwf' : nodupKeysB a = true ∧ treeWFbList cs = true := by
    have : treeWFb (.mk t a tx cs tl) = (nodupKeysB a && treeWFbList cs) := rfl
    rw [this, Bool.and_eq_true] at hwf
    exact hwf
  cases cs with
  | nil =>
    by_cases hb : (decide (lv ≠ 0) && pyBlank tl) = true
    · show treeWFb (if (decide (lv ≠ 0) && pyBlank tl) = true
            then Element.mk t a tx [] (some (levelIndent lv))
            else Element.mk t a tx [] tl) = true
      rw [if_pos hb]
      show (nodupKeysB a && treeWFbList []) = true
      rw [Bool.and_eq_true]
      exact ⟨hwf'.1, rfl⟩
    · show treeWFb (if (decide (lv ≠ 0) && pyBlank tl) = true
            then Element.mk t a tx [] (some (levelIndent lv))
            else Element.mk t a tx [] tl) = true
      rw [if_neg hb]
      show (nodupKeysB a && treeWFbList []) = true
      rw [Bool.and_eq_true]
      exact ⟨hwf'.1, rfl⟩
  | cons c0 cs0 =>
    show (nodupKeysB a
        && treeWFbList (setLastTail (levelIndent lv)
              (indentList (lv + 1) (c0 :: cs0)))) = true
    rw [Bool.and_eq_true, treeWFbList_setLastTail]
    refine ⟨hwf'.1, ?_⟩
    rw [treeWFbList_all]
    intro c hc
    rw [indentList_eq_map] at hc
    rcases List.mem_map.mp hc with ⟨c', hc', rfl⟩
    exact ih c' hc' (lv + 1) ((treeWFbList_all (c0 :: cs0)).mp hwf'.2 c' hc')

theorem sortAttribsEl_subtree_sorted : ∀ e : Element, treeWFb e = true →
    ∀ n ∈ subtreeList (sortAttribsEl e), 1 < n.attrib.length →
      n.attrib.Pairwise (fun p q => pyStrLt p.1 q.1 = true) := by
  refine element_ind ?_
  intro t a tx cs tl ih hwf n hn hlen
  have hwf' : nodupKeysB a = true ∧ treeWFbList cs = true := by
    have heq : treeWFb (.mk t a tx cs tl) = (nodupKeysB a && treeWFbList cs) := rfl
    rw [heq, Bool.and_eq_true] at hwf
    exact hwf
  have hsub : subtreeList (sortAttribsEl (.mk t a tx cs tl))
      = Element.mk t (if 1 < a.length then pySortPairs a else a) tx
          (sortAttribsList cs) tl :: subtreeListList (sortAttribsList cs) := rfl
  rw [hsub] at hn
  rcases List.mem_cons.mp hn with rfl | hn'
  · simp only [Element.attrib] at hlen ⊢
    by_cases hl : 1 < a.length
    · rw [if_pos hl]
      refine sorted_pairLe_nodup_strict (pySortPairs_sorted a) ?_
      exact (((pySortPairs_perm a).map Prod.fst).nodup_iff).mpr
        ((nodupKeysB_iff a).mp hwf'.1)
    · rw [if_neg hl] at hlen
      exact absurd hlen hl
  · rw [sortAttribsList_eq_map] at hn'
    rcases (mem_subtreeListList _).mp hn' with ⟨c', hc', hn''⟩
    rcases List.mem_map.mp hc' with ⟨c, hc, rfl⟩
    exact ih c hc ((treeWFbList_all cs).mp hwf'.2 c hc) n hn'' hlen

/-- C3: in the tree that `dumpString` serializes, every node with more than
one attribute carries its attributes in strictly ascending lexicographic
order of attribute name (given the dict invariant of pairwise-distinct
keys), and two trees that differ only in the insertion order of their
attributes canonicalize (with copy) to the same string. -/
theorem dumpString_sorts_attributes_and_is_order_independent :
    (∀ e : Element, treeWFb e = true →
      ∀ n ∈ subtreeList (sortAttribsEl (indentEl 0 e)), 1 < n.attrib.length →
        n.attrib.Pairwise (fun p q => pyStrLt p.1 q.1 = true)) ∧
    (∀ a b : Element, attribPermEl a b →
      (dumpString a false).1 = (dumpString b false).1) := by
  constructor
  · intro e hwf
    exact sortAttribsEl_subtree_sorted (indentEl 0 e) (treeWFb_indentEl e 0 hwf)
  · intro a b h
    show pyRstrip (serializeEl (sortAttribsEl (indentEl 0 a)))
        = pyRstrip (serializeEl (sortAttribsEl (indentEl 0 b)))
    rw [sortAttribsEl_eq_of_attribPerm _ _ (attribPermEl_indentEl a b 0 h)]

theorem dumpString_sorts_attributes_witness :
    ((sortAttribsEl (indentEl 0
        (Element.mk "root" [("b", "2"), ("a", "1")] none [] none))).attrib.Pairwise
      (fun p q => pyStrLt p.1 q.1 = true)) ∧
    (dumpString (Element.mk "root" [("b", "2"), ("a", "1")] none [] none) false).1
      = (dumpString (Element.mk "root" [("a", "1"), ("b", "2")] none [] none)
          false).1 :=
  ⟨dumpString_sorts_attributes_and_is_order_independent.1
      (Element.mk "root" [("b", "2"), ("a", "1")] none [] none) (by decide)
      (sortAttribsEl (indentEl 0
        (Element.mk "root" [("b", "2"), ("a", "1")] none [] none)))
      (List.mem_cons_self _ _) (by decide),
   dumpString_sorts_attributes_and_is_order_independent.2
      (Element.mk "root" [("b", "2"), ("a", "1")] none [] none)
      (Element.mk "root" [("a", "1"), ("b", "2")] none [] none)
      ⟨rfl, List.Perm.swap ("a", "1") ("b", "2") [], rfl, trivial, rfl⟩⟩
